import Mathlib

/-!
# Verification of the p2p-chat session coordination layer

A shallow embedding of `src/main.rs`: the ticket codec (base-32 over a
serialized `{topic, nodes}` structure), the two-variant wire `Message`
protocol, the peer-name directory, the inbound dispatch loop
(`subscribe_loop`) and the main input loop, together with proofs of the
spec's testable properties.

Bytes are modelled as `Nat` (with explicit `< 256` bounds where the
code relies on them), byte strings as `List Nat`, and fallible
operations as `Except String` mirroring `anyhow::Result`.
-/

namespace P2PChat

/-! ## Bits and bit vectors

`data_encoding::BASE32_NOPAD` works on a most-significant-bit-first
bit stream; we model bit vectors as `List Bool` (head = most
significant bit).
-/

/-- Least-significant-first bits of `n`, width `w`. -/
def natToBitsLE : Nat → Nat → List Bool
  | 0, _ => []
  | w + 1, n => decide (n % 2 = 1) :: natToBitsLE w (n / 2)

/-- Value of a least-significant-first bit list. -/
def bitsToNatLE : List Bool → Nat
  | [] => 0
  | b :: bs => (if b then 1 else 0) + 2 * bitsToNatLE bs

/-- Most-significant-first bits of `n`, width `w` (RFC 4648 bit order). -/
def natToBits (w n : Nat) : List Bool := (natToBitsLE w n).reverse

/-- Value of a most-significant-first bit list. -/
def bitsToNat (bs : List Bool) : Nat := bitsToNatLE bs.reverse

theorem length_natToBitsLE (w n : Nat) : (natToBitsLE w n).length = w := by
  induction w generalizing n with
  | zero => rfl
  | succ w ih => simp [natToBitsLE, ih]

theorem length_natToBits (w n : Nat) : (natToBits w n).length = w := by
  simp [natToBits, length_natToBitsLE]

theorem bitsToNatLE_natToBitsLE (w n : Nat) : bitsToNatLE (natToBitsLE w n) = n % 2 ^ w := by
  induction w generalizing n with
  | zero => simp [natToBitsLE, bitsToNatLE, Nat.mod_one]
  | succ w ih =>
    have hm : n % (2 * 2 ^ w) = n % 2 + 2 * (n / 2 % 2 ^ w) := Nat.mod_mul
    have hp : (2 : Nat) ^ (w + 1) = 2 * 2 ^ w := by ring
    simp only [natToBitsLE, bitsToNatLE, ih, hp, hm]
    rcases Nat.mod_two_eq_zero_or_one n with h | h <;> simp [h]

theorem bitsToNatLE_lt (bs : List Bool) : bitsToNatLE bs < 2 ^ bs.length := by
  induction bs with
  | nil => simp [bitsToNatLE]
  | cons b bs ih =>
    simp only [bitsToNatLE, List.length_cons, pow_succ]
    cases b <;> simp <;> omega

theorem natToBitsLE_bitsToNatLE (bs : List Bool) :
    natToBitsLE bs.length (bitsToNatLE bs) = bs := by
  induction bs with
  | nil => rfl
  | cons b bs ih =>
    have h1 : decide (((if b then 1 else 0) + 2 * bitsToNatLE bs) % 2 = 1) = b := by
      cases b <;> simp <;> omega
    have h2 : ((if b then 1 else 0) + 2 * bitsToNatLE bs) / 2 = bitsToNatLE bs := by
      cases b <;> simp <;> omega
    simp only [List.length_cons, natToBitsLE, bitsToNatLE, h1, h2, ih]

theorem bitsToNat_natToBits (w n : Nat) : bitsToNat (natToBits w n) = n % 2 ^ w := by
  simp [bitsToNat, natToBits, bitsToNatLE_natToBitsLE]

theorem natToBits_bitsToNat (bs : List Bool) : natToBits bs.length (bitsToNat bs) = bs := by
  unfold natToBits bitsToNat
  rw [show bs.length = bs.reverse.length by simp, natToBitsLE_bitsToNatLE,
    List.reverse_reverse]

theorem bitsToNat_lt (bs : List Bool) : bitsToNat bs < 2 ^ bs.length := by
  unfold bitsToNat
  simpa using bitsToNatLE_lt bs.reverse

/-! ## Chunking a list into fixed-size groups -/

/-- Fuel-driven worker for `chunksOf` (fuel makes the recursion structural,
so concrete inputs evaluate by kernel reduction). -/
def chunksOfAux (k : Nat) : Nat → List α → List (List α)
  | _, [] => []
  | 0, _ :: _ => []
  | fuel + 1, a :: l => (a :: l.take (k - 1)) :: chunksOfAux k fuel (l.drop (k - 1))

/-- Split a list into consecutive chunks of `k` elements each (the last chunk
may be shorter). -/
def chunksOf (k : Nat) (l : List α) : List (List α) := chunksOfAux k l.length l

theorem chunksOfAux_fuel {k : Nat} :
    ∀ {fuel fuel' : Nat} {l : List α}, l.length ≤ fuel → l.length ≤ fuel' →
      chunksOfAux k fuel l = chunksOfAux k fuel' l := by
  intro fuel
  induction fuel with
  | zero =>
    intro fuel' l h h'
    have : l = [] := List.eq_nil_of_length_eq_zero (by omega)
    subst this
    cases fuel' <;> rfl
  | succ fuel ih =>
    intro fuel' l h h'
    cases l with
    | nil => cases fuel' <;> rfl
    | cons a l =>
      simp only [List.length_cons] at h h'
      cases fuel' with
      | zero => omega
      | succ fuel' =>
        simp only [chunksOfAux]
        congr 1
        exact ih (by simp only [List.length_drop]; omega)
          (by simp only [List.length_drop]; omega)

theorem chunksOf_nil (k : Nat) : chunksOf k ([] : List α) = [] := rfl

theorem chunksOf_cons (k : Nat) (a : α) (l : List α) :
    chunksOf k (a :: l) = (a :: l.take (k - 1)) :: chunksOf k (l.drop (k - 1)) := by
  unfold chunksOf
  simp only [List.length_cons, chunksOfAux]
  congr 1
  exact chunksOfAux_fuel (by simp only [List.length_drop]; omega) le_rfl

theorem flatten_chunksOf (k : Nat) (l : List α) : (chunksOf k l).flatten = l := by
  suffices h : ∀ (n : Nat) (l : List α), l.length ≤ n → (chunksOf k l).flatten = l from
    h l.length l le_rfl
  intro n
  induction n with
  | zero =>
    intro l hl
    have : l = [] := List.eq_nil_of_length_eq_zero (by omega)
    subst this; rfl
  | succ n ih =>
    intro l hl
    cases l with
    | nil => rfl
    | cons a l =>
      simp only [List.length_cons] at hl
      rw [chunksOf_cons, List.flatten_cons,
        ih (l.drop (k - 1)) (by simp only [List.length_drop]; omega)]
      simp [List.take_append_drop]

theorem length_mem_chunksOf (k : Nat) (hk : 1 ≤ k) (l : List α) (hl : k ∣ l.length) :
    ∀ g ∈ chunksOf k l, g.length = k := by
  suffices h : ∀ (n : Nat) (l : List α), l.length ≤ n → k ∣ l.length →
      ∀ g ∈ chunksOf k l, g.length = k from h l.length l le_rfl hl
  intro n
  induction n with
  | zero =>
    intro l hl _
    have : l = [] := List.eq_nil_of_length_eq_zero (by omega)
    subst this; simp [chunksOf_nil]
  | succ n ih =>
    intro l hl hdvd g hg
    cases l with
    | nil => simp [chunksOf_nil] at hg
    | cons a l =>
      simp only [List.length_cons] at hl hdvd
      have hge : k ≤ l.length + 1 := Nat.le_of_dvd (by omega) hdvd
      rw [chunksOf_cons] at hg
      rcases List.mem_cons.mp hg with rfl | hg
      · simp only [List.length_cons, List.length_take]
        omega
      · refine ih (l.drop (k - 1)) (by simp only [List.length_drop]; omega) ?_ g hg
        have hsub : k ∣ l.length + 1 - k := Nat.dvd_sub' hdvd dvd_rfl
        have : (l.drop (k - 1)).length = l.length + 1 - k := by
          simp only [List.length_drop]; omega
        rw [this]
        exact hsub

theorem length_chunksOf (k : Nat) (hk : 1 ≤ k) (l : List α) (hl : k ∣ l.length) :
    l.length = k * (chunksOf k l).length := by
  suffices h : ∀ (n : Nat) (l : List α), l.length ≤ n → k ∣ l.length →
      l.length = k * (chunksOf k l).length from h l.length l le_rfl hl
  intro n
  induction n with
  | zero =>
    intro l hl _
    have : l = [] := List.eq_nil_of_length_eq_zero (by omega)
    subst this; simp [chunksOf_nil]
  | succ n ih =>
    intro l hl hdvd
    cases l with
    | nil => simp [chunksOf_nil]
    | cons a l =>
      simp only [List.length_cons] at hl hdvd
      have hge : k ≤ l.length + 1 := Nat.le_of_dvd (by omega) hdvd
      have hdl : (l.drop (k - 1)).length = l.length + 1 - k := by
        simp only [List.length_drop]; omega
      have hrec : l.length + 1 - k = k * (chunksOf k (l.drop (k - 1))).length := by
        rw [← hdl]
        refine ih (l.drop (k - 1)) (by omega) ?_
        rw [hdl]
        exact Nat.dvd_sub' hdvd dvd_rfl
      rw [chunksOf_cons]
      calc (a :: l).length = (l.length + 1 - k) + k := by
            simp only [List.length_cons]; omega
        _ = k * (chunksOf k (l.drop (k - 1))).length + k := by rw [hrec]
        _ = k * ((chunksOf k (l.drop (k - 1))).length + 1) := by ring
        _ = k * ((a :: l.take (k - 1)) :: chunksOf k (l.drop (k - 1))).length := by
            simp [List.length_cons]

theorem chunksOf_flatten (k : Nat) (hk : 1 ≤ k) (gs : List (List α))
    (h : ∀ g ∈ gs, g.length = k) : chunksOf k gs.flatten = gs := by
  induction gs with
  | nil => rfl
  | cons g gs ih =>
    obtain ⟨a, t, rfl⟩ : ∃ a t, g = a :: t := by
      cases g with
      | nil =>
        have := h [] (by simp)
        simp only [List.length_nil] at this
        omega
      | cons a t => exact ⟨a, t, rfl⟩
    have ht : t.length = k - 1 := by
      have := h (a :: t) (by simp)
      simp only [List.length_cons] at this
      omega
    rw [List.flatten_cons, List.cons_append, chunksOf_cons, List.take_left' ht,
      List.drop_left' ht, ih (fun g hg => h g (by simp [hg]))]

/-! ## The base-32 codec (`data_encoding::BASE32_NOPAD`)

RFC 4648 base 32 without padding: the byte stream is read as a
most-significant-bit-first bit stream, grouped into 5-bit values (the
final group zero-padded on the right), and each value mapped through
the alphabet `A..Z2..7`.  Decoding rejects characters outside the
alphabet, lengths that no byte string can encode to
(`len % 8 ∈ {1, 3, 6}`), and non-zero trailing bits.
-/

/-- The RFC 4648 base-32 alphabet. -/
def B32ALPHABET : List Char := "ABCDEFGHIJKLMNOPQRSTUVWXYZ234567".data

/-- Character assigned to a 5-bit value by the base-32 alphabet. -/
def b32char (v : Nat) : Char := B32ALPHABET.getD v 'A'

/-- Index of a character in the base-32 alphabet (`none` if invalid). -/
def b32val (c : Char) : Option Nat := B32ALPHABET.findIdx? (· == c)

/-- The most-significant-bit-first bit stream of a byte string. -/
def bytesToBits (bytes : List Nat) : List Bool := (bytes.map (natToBits 8)).flatten

/-- `data_encoding::BASE32_NOPAD.encode`: bytes to (uppercase) base-32 text,
no padding characters. -/
def b32encode (bytes : List Nat) : List Char :=
  let bits := bytesToBits bytes
  let padded := bits ++ List.replicate ((5 - bits.length % 5) % 5) false
  (chunksOf 5 padded).map (fun g => b32char (bitsToNat g))

/-- Alphabet values of a character list; `none` if any character is invalid. -/
def b32vals : List Char → Option (List Nat)
  | [] => some []
  | c :: cs =>
    match b32val c, b32vals cs with
    | some v, some vs => some (v :: vs)
    | _, _ => none

/-- `data_encoding::BASE32_NOPAD.decode`: base-32 text to bytes; fails on
characters outside the alphabet, impossible lengths, or non-zero trailing
bits. -/
def b32decode (chars : List Char) : Except String (List Nat) :=
  match b32vals chars with
  | none => Except.error "invalid symbol"
  | some vals =>
    if chars.length % 8 = 1 ∨ chars.length % 8 = 3 ∨ chars.length % 8 = 6 then
      Except.error "invalid length"
    else
      let bits := (vals.map (natToBits 5)).flatten
      let nbytes := 5 * chars.length / 8
      if (bits.drop (8 * nbytes)).any (fun b => b) then
        Except.error "non-zero trailing bits"
      else
        Except.ok ((chunksOf 8 (bits.take (8 * nbytes))).map bitsToNat)

theorem b32val_b32char : ∀ v : Nat, v < 32 → b32val (b32char v) = some v := by decide

theorem length_bytesToBits (bytes : List Nat) :
    (bytesToBits bytes).length = 8 * bytes.length := by
  induction bytes with
  | nil => rfl
  | cons b bs ih =>
    simp only [bytesToBits, List.map_cons, List.flatten_cons, List.length_append,
      List.length_cons, length_natToBits] at *
    omega

theorem b32vals_map_b32char (gs : List (List Bool)) (h : ∀ g ∈ gs, g.length = 5) :
    b32vals (gs.map (fun g => b32char (bitsToNat g))) = some (gs.map bitsToNat) := by
  induction gs with
  | nil => rfl
  | cons g gs ih =>
    have hlt : bitsToNat g < 32 := by
      have := bitsToNat_lt g
      rw [h g (by simp)] at this
      exact this
    simp only [List.map_cons, b32vals, b32val_b32char _ hlt,
      ih (fun g hg => h g (by simp [hg]))]

/-- Round trip through the modelled `data_encoding` codec: decoding an
encoded byte string recovers it exactly. -/
theorem b32decode_b32encode (bytes : List Nat) (h : ∀ b ∈ bytes, b < 256) :
    b32decode (b32encode bytes) = Except.ok bytes := by
  have hbl : (bytesToBits bytes).length = 8 * bytes.length := length_bytesToBits bytes
  set B := bytes.length with hB
  set bits := bytesToBits bytes with hbits
  set p := (5 - bits.length % 5) % 5 with hp
  set padded := bits ++ List.replicate p false with hpadded
  have hpl : padded.length = 8 * B + p := by
    simp [hpadded, hbl, List.length_replicate]
  have hp5 : (5:Nat) ∣ padded.length := by
    refine Nat.dvd_of_mod_eq_zero ?_
    omega
  have henc : b32encode bytes = (chunksOf 5 padded).map (fun g => b32char (bitsToNat g)) := by
    simp only [b32encode]
  have hmem5 : ∀ g ∈ chunksOf 5 padded, g.length = 5 :=
    length_mem_chunksOf 5 (by omega) padded hp5
  have hvals : b32vals (b32encode bytes) = some ((chunksOf 5 padded).map bitsToNat) := by
    rw [henc]
    exact b32vals_map_b32char _ hmem5
  have hclen : padded.length = 5 * (b32encode bytes).length := by
    rw [henc, List.length_map]
    exact length_chunksOf 5 (by omega) padded hp5
  set clen := (b32encode bytes).length with hclendef
  have hlenok : ¬(clen % 8 = 1 ∨ clen % 8 = 3 ∨ clen % 8 = 6) := by omega
  have hnb : 5 * clen / 8 = B := by omega
  have hbitsrec : (((chunksOf 5 padded).map bitsToNat).map (natToBits 5)).flatten = padded := by
    rw [List.map_map]
    have hid : (chunksOf 5 padded).map (natToBits 5 ∘ bitsToNat) =
        (chunksOf 5 padded).map id := by
      refine List.map_congr_left ?_
      intro g hg
      have h5 := hmem5 g hg
      have hrt := natToBits_bitsToNat g
      rw [h5] at hrt
      simpa [Function.comp] using hrt
    rw [hid, List.map_id, flatten_chunksOf]
  have htake : padded.take (8 * B) = bits :=
    List.take_left' (by omega)
  have hdrop : padded.drop (8 * B) = List.replicate p false :=
    List.drop_left' (by omega)
  have hchunks8 : chunksOf 8 bits = bytes.map (natToBits 8) := by
    rw [hbits]
    exact chunksOf_flatten 8 (by omega) _ (by
      intro g hg
      rcases List.mem_map.mp hg with ⟨b, _, rfl⟩
      exact length_natToBits 8 b)
  have hback : (bytes.map (natToBits 8)).map bitsToNat = bytes := by
    rw [List.map_map]
    have hid : bytes.map (bitsToNat ∘ natToBits 8) = bytes.map id := by
      refine List.map_congr_left ?_
      intro b hb
      simp [Function.comp, bitsToNat_natToBits, Nat.mod_eq_of_lt (h b hb)]
    rw [hid, List.map_id]
  rw [b32decode, hvals]
  simp only [hclendef.symm]
  rw [if_neg hlenok]
  simp only [hbitsrec, hnb, hdrop, htake]
  rw [if_neg (by simp [List.any_replicate])]
  rw [hchunks8, hback]

/-! ## Serialization model

`main.rs` serializes `Ticket` and `Message` with `serde_json` (an
external collaborator): `to_vec` cannot fail for these types and
`from_slice` inverts it, failing on any structurally invalid input.
We model that contract with an executable, injective, self-delimiting
byte encoding: every number is written as its little-endian base-255
digits terminated by the byte `255`, strings as a length followed by
their code points, lists as a length followed by their elements.
Decoders consume a prefix and return the rest; top-level `from_bytes`
requires the input to be consumed exactly, as `serde_json::from_slice`
does. -/

/-- Little-endian base-255 digits of `n` (empty for `0`). -/
def encNatAux : Nat → List Nat
  | 0 => []
  | n + 1 => ((n + 1) % 255) :: encNatAux ((n + 1) / 255)
decreasing_by exact Nat.div_lt_self (Nat.succ_pos n) (by omega)

/-- Self-delimiting encoding of a natural number: base-255 digits
terminated by the byte `255`. -/
def encNat (n : Nat) : List Nat := encNatAux n ++ [255]

/-- Decode a number encoded by `encNat` from the front of a byte string. -/
def decNat : List Nat → Option (Nat × List Nat)
  | [] => none
  | b :: rest =>
    if b = 255 then some (0, rest)
    else if b < 255 then
      match decNat rest with
      | some (m, rest') => some (b + 255 * m, rest')
      | none => none
    else none

theorem decNat_encNat (n : Nat) (r : List Nat) : decNat (encNat n ++ r) = some (n, r) := by
  induction n using Nat.strong_induction_on with
  | _ n ih =>
    cases n with
    | zero => simp [encNat, encNatAux, decNat]
    | succ m =>
      have hlt : (m + 1) / 255 < m + 1 := Nat.div_lt_self (Nat.succ_pos m) (by omega)
      have hmod : (m + 1) % 255 < 255 := Nat.mod_lt _ (by omega)
      have ihq := ih ((m + 1) / 255) hlt
      rw [encNat] at ihq ⊢
      simp only [encNatAux, List.cons_append, List.append_assoc] at *
      rw [decNat]
      simp only [if_neg (by omega : ¬(m + 1) % 255 = 255), if_pos hmod, ihq]
      rw [Nat.mod_add_div (m + 1) 255]

theorem mem_encNat_lt (n : Nat) : ∀ b ∈ encNat n, b < 256 := by
  rw [encNat]
  induction n using Nat.strong_induction_on with
  | _ n ih =>
    cases n with
    | zero => simp [encNatAux]
    | succ m =>
      have hlt : (m + 1) / 255 < m + 1 := Nat.div_lt_self (Nat.succ_pos m) (by omega)
      intro b hb
      rw [encNatAux] at hb
      simp only [List.cons_append, List.mem_cons] at hb
      rcases hb with rfl | hb
      · have : (m + 1) % 255 < 255 := Nat.mod_lt _ (by omega)
        omega
      · exact ih _ hlt b hb

/-- Encode a list elementwise after a length header. -/
def encListWith (f : α → List Nat) (l : List α) : List Nat :=
  encNat l.length ++ (l.map f).flatten

theorem mem_encListWith_lt (f : α → List Nat) (l : List α)
    (hf : ∀ a ∈ l, ∀ b ∈ f a, b < 256) : ∀ b ∈ encListWith f l, b < 256 := by
  intro b hb
  rcases List.mem_append.mp hb with hb | hb
  · exact mem_encNat_lt _ b hb
  · rcases List.mem_flatten.mp hb with ⟨g, hg, hbg⟩
    rcases List.mem_map.mp hg with ⟨a, ha, rfl⟩
    exact hf a ha b hbg

/-- Decode `k` consecutive values with `dec`. -/
def decCount (dec : List Nat → Option (α × List Nat)) : Nat → List Nat → Option (List α × List Nat)
  | 0, l => some ([], l)
  | k + 1, l =>
    match dec l with
    | none => none
    | some (a, rest) =>
      match decCount dec k rest with
      | none => none
      | some (as, rest') => some (a :: as, rest')

/-- Decode a length-headed list encoded by `encListWith`. -/
def decListWith (dec : List Nat → Option (α × List Nat)) (l : List Nat) :
    Option (List α × List Nat) :=
  match decNat l with
  | none => none
  | some (k, rest) => decCount dec k rest

theorem decCount_flatten (dec : List Nat → Option (α × List Nat)) (f : α → List Nat)
    (l : List α) (hf : ∀ a ∈ l, ∀ r, dec (f a ++ r) = some (a, r)) (r : List Nat) :
    decCount dec l.length ((l.map f).flatten ++ r) = some (l, r) := by
  induction l with
  | nil => simp [decCount]
  | cons a l ih =>
    have hfa := hf a (by simp)
    have ihl := ih (fun a ha r => hf a (by simp [ha]) r)
    simp only [List.length_cons, List.map_cons, List.flatten_cons, List.append_assoc,
      decCount, hfa, ihl]

theorem decListWith_encListWith (dec : List Nat → Option (α × List Nat)) (f : α → List Nat)
    (l : List α) (hf : ∀ a ∈ l, ∀ r, dec (f a ++ r) = some (a, r)) (r : List Nat) :
    decListWith dec (encListWith f l ++ r) = some (l, r) := by
  rw [encListWith, decListWith, List.append_assoc, decNat_encNat]
  exact decCount_flatten dec f l hf r

/-- Encoding of one Unicode code point. -/
def encChar (c : Char) : List Nat := encNat c.toNat

/-- Decode one code point; fails if the value is not a Unicode scalar. -/
def decChar (l : List Nat) : Option (Char × List Nat) :=
  match decNat l with
  | none => none
  | some (v, rest) => if Nat.isValidChar v then some (Char.ofNat v, rest) else none

theorem decChar_encChar (c : Char) (r : List Nat) : decChar (encChar c ++ r) = some (c, r) := by
  have hv : Nat.isValidChar c.toNat := c.valid
  simp only [encChar, decChar, decNat_encNat]
  rw [if_pos hv, Char.ofNat_toNat]

/-- Encoding of a string: its code points, length-headed. -/
def encString (s : String) : List Nat := encListWith encChar s.data

/-- Decode a string encoded by `encString`. -/
def decString (l : List Nat) : Option (String × List Nat) :=
  match decListWith decChar l with
  | none => none
  | some (cs, rest) => some (String.mk cs, rest)

theorem decString_encString (s : String) (r : List Nat) :
    decString (encString s ++ r) = some (s, r) := by
  rw [encString, decString,
    decListWith_encListWith decChar encChar s.data (fun c _ r => decChar_encChar c r)]

/-! ## Data model (the types of `main.rs`) -/

/-- `iroh_gossip::proto::TopicId`: a fixed-size opaque topic identifier.
Its contents are opaque to this layer; we model them as a byte list. -/
structure TopicId where
  bytes : List Nat
deriving DecidableEq

/-- `iroh::NodeId`: an opaque, stable participant identity (a public key,
only stored, compared and displayed by this layer). -/
structure NodeId where
  key : Nat
deriving DecidableEq

/-- `iroh::NodeAddr`: a node identity plus opaque dialing information
(relay URL and direct addresses), modelled as a byte blob. -/
structure NodeAddr where
  node_id : NodeId
  info : List Nat
deriving DecidableEq

/-- `NodeId::fmt_short`: the shortened display form of an identity. -/
def NodeId.fmt_short (n : NodeId) : String := (toString n.key).take 10

/-- `struct Ticket { topic: TopicId, nodes: Vec<NodeAddr> }`
(main.rs lines 186-190). -/
structure Ticket where
  topic : TopicId
  nodes : List NodeAddr
deriving DecidableEq

/-- `enum Message { AboutMe { from, name }, Message { from, text } }`
(main.rs lines 218-222). -/
inductive Message where
  | aboutMe (from_ : NodeId) (name : String)
  | message (from_ : NodeId) (text : String)
deriving DecidableEq

/-! ## Ticket serialization (main.rs lines 192-216) -/

/-- Serialized form of a `NodeAddr` (its serde encoding, modelled). -/
def encNodeAddr (a : NodeAddr) : List Nat :=
  encNat a.node_id.key ++ encListWith encNat a.info

/-- Decode a `NodeAddr` from the front of a byte string. -/
def decNodeAddr (l : List Nat) : Option (NodeAddr × List Nat) :=
  match decNat l with
  | none => none
  | some (k, rest) =>
    match decListWith decNat rest with
    | none => none
    | some (info, rest') => some (⟨⟨k⟩, info⟩, rest')

theorem decNodeAddr_encNodeAddr (a : NodeAddr) (r : List Nat) :
    decNodeAddr (encNodeAddr a ++ r) = some (a, r) := by
  simp only [encNodeAddr, decNodeAddr, List.append_assoc, decNat_encNat,
    decListWith_encListWith decNat encNat a.info (fun n _ r => decNat_encNat n r)]

/-- `Ticket::to_bytes` (main.rs lines 197-199): total serialization of a
ticket.  Models `serde_json::to_vec`, whose `expect` branch is unreachable
for this type. -/
def Ticket.to_bytes (t : Ticket) : List Nat :=
  encListWith encNat t.topic.bytes ++ encListWith encNodeAddr t.nodes

/-- `Ticket::from_bytes` (main.rs lines 193-195): deserialization, failing
on any input that is not exactly a serialized ticket
(`serde_json::from_slice`). -/
def Ticket.from_bytes (l : List Nat) : Except String Ticket :=
  match decListWith decNat l with
  | none => Except.error "invalid ticket: topic"
  | some (topic, rest) =>
    match decListWith decNodeAddr rest with
    | none => Except.error "invalid ticket: nodes"
    | some (nodes, rest') =>
      match rest' with
      | [] => Except.ok ⟨⟨topic⟩, nodes⟩
      | _ :: _ => Except.error "invalid ticket: trailing bytes"

theorem from_bytes_to_bytes (t : Ticket) : Ticket.from_bytes t.to_bytes = Except.ok t := by
  have h1 := decListWith_encListWith decNat encNat t.topic.bytes
    (fun n _ r => decNat_encNat n r) (encListWith encNodeAddr t.nodes)
  have h2 := decListWith_encListWith decNodeAddr encNodeAddr t.nodes
    (fun a _ r => decNodeAddr_encNodeAddr a r) []
  rw [List.append_nil] at h2
  simp only [Ticket.to_bytes, Ticket.from_bytes, h1, h2]

theorem mem_to_bytes_lt (t : Ticket) : ∀ b ∈ t.to_bytes, b < 256 := by
  intro b hb
  rcases List.mem_append.mp hb with hb | hb
  · exact mem_encListWith_lt _ _ (fun n _ => mem_encNat_lt n) b hb
  · refine mem_encListWith_lt _ _ ?_ b hb
    intro a _ b hb
    rcases List.mem_append.mp hb with hb | hb
    · exact mem_encNat_lt _ b hb
    · exact mem_encListWith_lt _ _ (fun n _ => mem_encNat_lt n) b hb

/-- `String::make_ascii_lowercase` (main.rs line 205), as the Rust string
operation: ASCII letters are lowercased, all else unchanged. -/
def toAsciiLowercase (s : String) : String := ⟨s.data.map Char.toLower⟩

/-- `str::to_ascii_uppercase` (main.rs line 213). -/
def toAsciiUppercase (s : String) : String := ⟨s.data.map Char.toUpper⟩

/-- `impl fmt::Display for Ticket` (main.rs lines 202-208): base-32-encode
the serialized ticket, then lowercase the text. -/
def Ticket.display (t : Ticket) : String := toAsciiLowercase ⟨b32encode t.to_bytes⟩

/-- `impl FromStr for Ticket` (main.rs lines 210-216): uppercase the input,
base-32-decode it, then deserialize the bytes. -/
def Ticket.from_str (s : String) : Except String Ticket :=
  match b32decode (toAsciiUppercase s).data with
  | Except.error e => Except.error e
  | Except.ok bytes => Ticket.from_bytes bytes

theorem b32char_case_facts : ∀ v : Nat, v < 32 →
    Char.toUpper (Char.toLower (b32char v)) = b32char v ∧
    Char.toUpper (b32char v) = b32char v := by decide

theorem mem_b32encode (bytes : List Nat) (c : Char) (hc : c ∈ b32encode bytes) :
    ∃ v : Nat, v < 32 ∧ c = b32char v := by
  simp only [b32encode] at hc
  rcases List.mem_map.mp hc with ⟨g, hg, rfl⟩
  have hdvd : (5:Nat) ∣ (bytesToBits bytes ++
      List.replicate ((5 - (bytesToBits bytes).length % 5) % 5) false).length := by
    refine Nat.dvd_of_mod_eq_zero ?_
    simp only [List.length_append, List.length_replicate]
    omega
  have h5 : g.length = 5 := length_mem_chunksOf 5 (by omega) _ hdvd g hg
  refine ⟨bitsToNat g, ?_, rfl⟩
  have := bitsToNat_lt g
  rw [h5] at this
  exact this

theorem from_str_display (t : Ticket) : Ticket.from_str t.display = Except.ok t := by
  have hchars : (toAsciiUppercase t.display).data = b32encode t.to_bytes := by
    simp only [Ticket.display, toAsciiLowercase, toAsciiUppercase, List.map_map]
    have hid : (b32encode t.to_bytes).map (Char.toUpper ∘ Char.toLower) =
        (b32encode t.to_bytes).map id := by
      refine List.map_congr_left ?_
      intro c hc
      rcases mem_b32encode _ c hc with ⟨v, hv, rfl⟩
      simpa [Function.comp] using (b32char_case_facts v hv).1
    rw [hid, List.map_id]
  simp only [Ticket.from_str, hchars, b32decode_b32encode _ (mem_to_bytes_lt t)]
  exact from_bytes_to_bytes t

/-! ## Message serialization (main.rs lines 224-231) -/

/-- `Message::to_vec` (main.rs lines 229-231): total serialization of a wire
message.  Models `serde_json::to_vec`, whose panic branch
(`expect("serde_json::to_vec is infallible")`) is unreachable. -/
def Message.to_vec : Message → List Nat
  | Message.aboutMe f n => 0 :: (encNat f.key ++ encString n)
  | Message.message f t => 1 :: (encNat f.key ++ encString t)

/-- `Message::from_bytes` (main.rs lines 225-227): deserialization of a wire
message; fails on anything that is not exactly a serialized `Message`
(`serde_json::from_slice`). -/
def Message.from_bytes (l : List Nat) : Except String Message :=
  match l with
  | [] => Except.error "invalid message: empty"
  | tag :: rest =>
    if tag = 0 ∨ tag = 1 then
      match decNat rest with
      | none => Except.error "invalid message: sender"
      | some (k, rest') =>
        match decString rest' with
        | none => Except.error "invalid message: body"
        | some (s, rest'') =>
          match rest'' with
          | [] =>
            Except.ok (if tag = 0 then Message.aboutMe ⟨k⟩ s else Message.message ⟨k⟩ s)
          | _ :: _ => Except.error "invalid message: trailing bytes"
    else Except.error "invalid message: tag"

theorem from_bytes_to_vec (m : Message) : Message.from_bytes m.to_vec = Except.ok m := by
  cases m with
  | aboutMe f n =>
    have h1 := decNat_encNat f.key (encString n)
    have h2 := decString_encString n []
    rw [List.append_nil] at h2
    simp [Message.to_vec, Message.from_bytes, h1, h2]
  | message f t =>
    have h1 := decNat_encNat f.key (encString t)
    have h2 := decString_encString t []
    rw [List.append_nil] at h2
    simp [Message.to_vec, Message.from_bytes, h1, h2]

/-! ## Peer directory (the `names` map, main.rs line 96)

`HashMap<NodeId, String>` behind `Arc<Mutex<..>>`.  We model the map as an
association list with at most one entry per key; `record` is
`HashMap::insert` (insert-or-overwrite), `lookup` is `HashMap::get`,
`snapshot_values` is `HashMap::values` (iteration order is unspecified in
the source, so any order is a faithful model). -/

/-- The peer directory: identity to last-announced display name. -/
abbrev PeerDirectory := List (NodeId × String)

/-- `names.insert(from, name)` (main.rs line 167): insert-or-overwrite. -/
def record (d : PeerDirectory) (id : NodeId) (name : String) : PeerDirectory :=
  d.filter (fun p => decide (p.1 ≠ id)) ++ [(id, name)]

/-- `names.get(&from)` (main.rs line 174). -/
def lookup (d : PeerDirectory) (id : NodeId) : Option String :=
  (d.find? (fun p => decide (p.1 = id))).map (·.2)

/-- `names.values()` (main.rs line 119), backing the `/list` command. -/
def snapshot_values (d : PeerDirectory) : List String := d.map (·.2)

theorem lookup_record_self (d : PeerDirectory) (id : NodeId) (name : String) :
    lookup (record d id name) id = some name := by
  unfold lookup record
  rw [List.find?_append]
  have hnone : (d.filter (fun p => decide (p.1 ≠ id))).find? (fun p => decide (p.1 = id)) = none := by
    rw [List.find?_eq_none]
    intro p hp
    have := List.of_mem_filter hp
    simp at this ⊢
    exact this
  rw [hnone]
  simp [List.find?]


theorem lookup_record_other (d : PeerDirectory) (id id' : NodeId) (name : String)
    (h : id' ≠ id) : lookup (record d id name) id' = lookup d id' := by
  unfold lookup record
  rw [List.find?_append]
  have h2 : [(id, name)].find? (fun p => decide (p.1 = id')) = none := by
    simp [List.find?, Ne.symm h]
  have h3 : (d.filter (fun p => decide (p.1 ≠ id))).find? (fun p => decide (p.1 = id')) =
      d.find? (fun p => decide (p.1 = id')) := by
    induction d with
    | nil => rfl
    | cons p d ih =>
      by_cases hp : p.1 = id
      · rw [List.filter_cons, if_neg (by simp [hp]), ih]
        simp [List.find?_cons, hp, Ne.symm h]
      · rw [List.filter_cons, if_pos (by simp [hp])]
        by_cases hp' : p.1 = id'
        · simp [List.find?_cons, hp']
        · have hc : decide (p.1 = id') = false := by simp [hp']
          simp only [List.find?_cons, hc]
          exact ih
  rw [h2, h3]
  cases d.find? (fun p => decide (p.1 = id')) <;> rfl

theorem countP_record (d : PeerDirectory) (id : NodeId) (name : String) :
    (record d id name).countP (fun p => decide (p.1 = id)) = 1 := by
  unfold record
  rw [List.countP_append]
  have h0 : (d.filter (fun p => decide (p.1 ≠ id))).countP (fun p => decide (p.1 = id)) = 0 := by
    rw [List.countP_eq_zero]
    intro p hp
    have := List.of_mem_filter hp
    simp at this ⊢
    exact this
  rw [h0]
  simp [List.countP, List.countP.go]

/-! ## Session coordinator (main.rs lines 32-184)

Terminal output is modelled as a list of structured `Output` events;
`print_message` (lines 144-147) always attaches the current wall-clock
timestamp, which we thread through as an abstract `now` value. -/

/-- One line of terminal output. -/
inductive Output where
  /-- A plain `println!` line. -/
  | line (s : String)
  /-- `print_message` (main.rs lines 144-147): timestamp, display name,
  message body. -/
  | chat (now : Nat) (name : String) (text : String)
  /-- The `print!("\x07")` terminal bell. -/
  | bell
  /-- The `/list` output `println!("user history: {:?}", ..)`
  (main.rs line 119). -/
  | userHistory (names : List String)
deriving DecidableEq

/-- An inbound event from the gossip receiver stream. -/
inductive NetEvent where
  /-- `Event::Gossip(GossipEvent::Received(msg))` with payload bytes. -/
  | received (content : List Nat)
  /-- Any other event kind (neighbor changes etc.), ignored by the loop. -/
  | other
deriving DecidableEq

/-- Sender-name resolution of the `Message::Message` arm (main.rs lines
172-175): the directory entry, or the identity's shortened form if absent. -/
def renderName (names : PeerDirectory) (from_ : NodeId) : String :=
  match lookup names from_ with
  | none => from_.fmt_short
  | some s => s

/-- `subscribe_loop` (main.rs lines 160-184): drain the event stream;
on `AboutMe` record the name and announce the join, on `Message` render a
chat line; a payload that fails to decode makes the whole loop return that
error (the `?` on line 164) without processing any later event. -/
def subscribe_loop (now : Nat) : List NetEvent → PeerDirectory →
    Except String (PeerDirectory × List Output)
  | [], names => Except.ok (names, [])
  | NetEvent.other :: rest, names => subscribe_loop now rest names
  | NetEvent.received content :: rest, names =>
    match Message.from_bytes content with
    | Except.error e => Except.error e
    | Except.ok (Message.aboutMe from_ name) =>
      match subscribe_loop now rest (record names from_ name) with
      | Except.error e => Except.error e
      | Except.ok (d, outs) =>
        Except.ok (d, Output.line ("-> " ++ from_.fmt_short ++ " joined chat as " ++ name)
          :: Output.bell :: outs)
    | Except.ok (Message.message from_ text) =>
      match subscribe_loop now rest names with
      | Except.error e => Except.error e
      | Except.ok (d, outs) =>
        Except.ok (d, Output.chat now (renderName names from_) text :: Output.bell :: outs)

/-- Rust `str::trim` (main.rs line 108): strip leading and trailing
whitespace.  (Modelled on the character list; Lean's own `String.trim`
is byte-position based and not kernel-reducible.) -/
def rustTrim (s : String) : String :=
  ⟨((s.data.dropWhile Char.isWhitespace).reverse.dropWhile Char.isWhitespace).reverse⟩

/-- Rust `str::starts_with("/")` (main.rs line 110). -/
def startsWithSlash (s : String) : Bool :=
  match s.data with
  | [] => false
  | c :: _ => decide (c = '/')

/-- One iteration of the main input loop (main.rs lines 107-137): given the
raw line received from the input channel, produce the messages handed to
`sender.broadcast`, the terminal output, and whether the loop continues
(`false` exactly for `/exit`'s `break`). -/
def process_line (localId : NodeId) (argsName : Option String) (names : PeerDirectory)
    (now : Nat) (raw : String) : List Message × List Output × Bool :=
  let text := rustTrim raw
  if startsWithSlash text then
    if text = "/exit" then
      ([], [Output.line "leaving chat..."], false)
    else if text = "/list" then
      ([], [Output.userHistory (snapshot_values names)], true)
    else
      ([], [Output.line ("unknown command: " ++ text)], true)
  else
    ([Message.message localId text],
     [Output.chat now (argsName.getD "you") text], true)

/-- The main input loop (main.rs lines 107-137) over the sequence of lines
delivered by the input channel: accumulates broadcasts and terminal output
until the lines run out or `/exit` breaks the loop. -/
def main_loop (localId : NodeId) (argsName : Option String) (names : PeerDirectory)
    (now : Nat) : List String → List Message × List Output
  | [] => ([], [])
  | raw :: rest =>
    match process_line localId argsName names now raw with
    | (bs, outs, true) =>
      let r := main_loop localId argsName names now rest
      (bs ++ r.1, outs ++ r.2)
    | (bs, outs, false) => (bs, outs)

/-- The CLI subcommand (main.rs lines 24-30). -/
inductive Command where
  | open_
  | join (ticket : String)

/-- Startup ticket resolution and re-sharing (main.rs lines 36-47 and
66-71): resolve `(topic, nodes)` from the subcommand — a fresh random
topic and no bootstrap nodes for `open`, the decoded ticket for `join` —
then build the ticket printed as "ticket to join us" from the topic and
`nodes = vec![me]`, the local node address only (the `nodes` binding is
shadowed on line 68).  Returns the printed ticket and the bootstrap
addresses handed to `endpoint.add_node_addr`. -/
def startup_ticket (cmd : Command) (freshTopic : TopicId) (me : NodeAddr) :
    Except String (Ticket × List NodeAddr) :=
  match cmd with
  | Command.open_ => Except.ok ({ topic := freshTopic, nodes := [me] }, [])
  | Command.join s =>
    match Ticket.from_str s with
    | Except.error e => Except.error e
    | Except.ok t => Except.ok ({ topic := t.topic, nodes := [me] }, t.nodes)

/-- The `Active` phase of `main` (lines 99-137): line 99 spawns
`subscribe_loop` with `tokio::spawn` and drops the returned `JoinHandle`,
so the input loop runs independently of — and never observes — the
dispatch activity's result.  The model pairs the two activities' outcomes;
the input-loop component does not depend on the dispatch component. -/
def active_session (localId : NodeId) (argsName : Option String) (names : PeerDirectory)
    (now : Nat) (inbound : List NetEvent) (lines : List String) :
    Except String (PeerDirectory × List Output) × (List Message × List Output) :=
  (subscribe_loop now inbound names, main_loop localId argsName names now lines)

/-- A directory built by a sequence of `record` operations starting from
the empty map created at session start (main.rs line 96). -/
def build_directory (ops : List (NodeId × String)) : PeerDirectory :=
  ops.foldl (fun d p => record d p.1 p.2) []

theorem lookup_build_directory_not_mem (ops : List (NodeId × String)) (id : NodeId)
    (h : id ∉ ops.map (·.1)) : lookup (build_directory ops) id = none := by
  suffices hgen : ∀ (d : PeerDirectory), lookup d id = none →
      lookup (ops.foldl (fun d p => record d p.1 p.2) d) id = none by
    exact hgen [] rfl
  induction ops with
  | nil => intro d hd; simpa [List.foldl] using hd
  | cons p ops ih =>
    intro d hd
    simp only [List.map_cons, List.mem_cons] at h
    rw [List.foldl_cons]
    exact ih (fun hmem => h (Or.inr hmem)) _
      (by rw [lookup_record_other _ _ _ _ (fun he => h (Or.inl he))]; exact hd)

/-! ## The claims -/

/-- **C1.** For every valid ticket (a topic id plus a sequence of node
addresses), decoding the encoded text form (`Ticket::from_str` applied to
the `Display` output) succeeds and yields a ticket with a topic identical
to the original and an identical set of node identities (the code in fact
returns the identical ticket, so even the order is preserved). -/
theorem C1_ticket_round_trip (t : Ticket) :
    ∃ t' : Ticket, Ticket.from_str t.display = Except.ok t' ∧
      t'.topic = t.topic ∧
      (∀ i : NodeId, i ∈ t'.nodes.map NodeAddr.node_id ↔
        i ∈ t.nodes.map NodeAddr.node_id) :=
  ⟨t, from_str_display t, rfl, fun _ => Iff.rfl⟩

/-- **C2.** For every constructible `Message` value, encoding never fails
(`Message::to_vec` is modelled by a total function, its panic branch being
unreachable) and decoding the encoded bytes (`Message::from_bytes`)
returns exactly the original message. -/
theorem C2_message_round_trip (m : Message) :
    Message.from_bytes m.to_vec = Except.ok m :=
  from_bytes_to_vec m

/-- **C3 (amended).** If decoding an inbound gossip payload fails, the
dispatch activity (`subscribe_loop`) terminates with that error and
processes no further events — there is no skip-and-continue.  (The
original claim's "transitively the session terminates" part is refuted
separately: `main` drops the spawned task's `JoinHandle` on line 99, so
the input loop never observes the dispatch failure.) -/
theorem C3_decode_error_stops_dispatch (now : Nat) (content : List Nat)
    (rest : List NetEvent) (names : PeerDirectory) (e : String)
    (h : Message.from_bytes content = Except.error e) :
    subscribe_loop now (NetEvent.received content :: rest) names = Except.error e := by
  simp [subscribe_loop, h]

theorem C3_decode_error_stops_dispatch_witness :
    Message.from_bytes [9] = Except.error "invalid message: tag" ∧
    subscribe_loop 0 [NetEvent.received [9], NetEvent.other] [] =
      Except.error "invalid message: tag" :=
  ⟨rfl, C3_decode_error_stops_dispatch 0 [9] [NetEvent.other] [] _ rfl⟩

/-- **C3 (counterexample).** The claim that a decode failure "transitively"
terminates the session is false on the code: with a malformed inbound
payload and a subsequent keyboard line, the dispatch activity returns a
decode error, yet the main loop still broadcasts the subsequent chat line
— the session keeps running. -/
theorem C3_session_does_not_terminate :
    (active_session ⟨0⟩ none [] 0 [NetEvent.received [9]] ["hi"]).1 =
      Except.error "invalid message: tag" ∧
    (active_session ⟨0⟩ none [] 0 [NetEvent.received [9]] ["hi"]).2.1 =
      [Message.message ⟨0⟩ "hi"] :=
  ⟨rfl, rfl⟩

/-- **C4.** The peer directory stores at most one name per identity, with
the latest `AboutMe` winning: after recording `(id, a)` and then
`(id, b)`, looking up `id` returns `some b`, and exactly one entry for
`id` is stored — regardless of the directory's prior contents. -/
theorem C4_directory_latest_wins (d : PeerDirectory) (id : NodeId) (a b : String) :
    lookup (record (record d id a) id b) id = some b ∧
    (record (record d id a) id b).countP (fun p => decide (p.1 = id)) = 1 :=
  ⟨lookup_record_self _ _ _, countP_record _ _ _⟩

/-- **C5.** When the main loop receives an input line that trims to
`/exit`, it prints the farewell line and terminates the loop without
broadcasting that line as chat text (later lines are not processed); any
other line starting with `/` that is neither `/exit` nor `/list` prints an
unknown-command notice and the loop continues, broadcasting nothing for
that line. -/
theorem C5_command_dispatch (localId : NodeId) (argsName : Option String)
    (names : PeerDirectory) (now : Nat) (raw : String) (rest : List String) :
    (rustTrim raw = "/exit" →
      main_loop localId argsName names now (raw :: rest) =
        ([], [Output.line "leaving chat..."])) ∧
    (startsWithSlash (rustTrim raw) = true → rustTrim raw ≠ "/exit" →
      rustTrim raw ≠ "/list" →
      main_loop localId argsName names now (raw :: rest) =
        ((main_loop localId argsName names now rest).1,
         Output.line ("unknown command: " ++ rustTrim raw) ::
           (main_loop localId argsName names now rest).2)) := by
  constructor
  · intro h
    have hp : process_line localId argsName names now raw =
        ([], [Output.line "leaving chat..."], false) := by
      simp only [process_line, h]
      rfl
    simp only [main_loop, hp]
  · intro hs hne hnl
    have hp : process_line localId argsName names now raw =
        ([], [Output.line ("unknown command: " ++ rustTrim raw)], true) := by
      simp only [process_line, hs, if_true, if_neg hne, if_neg hnl]
    simp only [main_loop, hp, List.nil_append, List.cons_append]

theorem C5_command_dispatch_witness :
    (rustTrim "/exit\n" = "/exit" ∧
      main_loop ⟨0⟩ none [] 0 ["/exit\n", "hello"] =
        ([], [Output.line "leaving chat..."])) ∧
    (startsWithSlash (rustTrim "/foo\n") = true ∧ rustTrim "/foo\n" ≠ "/exit" ∧
      rustTrim "/foo\n" ≠ "/list" ∧
      main_loop ⟨0⟩ none [] 0 ["/foo\n"] =
        ((main_loop ⟨0⟩ none [] 0 ([] : List String)).1,
         Output.line ("unknown command: " ++ rustTrim "/foo\n") ::
           (main_loop ⟨0⟩ none [] 0 ([] : List String)).2)) :=
  ⟨⟨by decide, (C5_command_dispatch ⟨0⟩ none [] 0 "/exit\n" ["hello"]).1 (by decide)⟩,
   ⟨by decide, by decide, by decide,
    (C5_command_dispatch ⟨0⟩ none [] 0 "/foo\n" []).2 (by decide) (by decide) (by decide)⟩⟩

/-- **C6.** An input line that does not start with `/` (after trimming),
with no `--name` configured, makes the main loop hand exactly one
`Message { from: localId, text }` to the send interface and echo the line
locally exactly once, under the default placeholder name `"you"`, with a
timestamp. -/
theorem C6_chat_line_broadcast (localId : NodeId) (names : PeerDirectory)
    (now : Nat) (raw : String) (rest : List String)
    (h : startsWithSlash (rustTrim raw) = false) :
    main_loop localId none names now (raw :: rest) =
      (Message.message localId (rustTrim raw) ::
         (main_loop localId none names now rest).1,
       Output.chat now "you" (rustTrim raw) ::
         (main_loop localId none names now rest).2) := by
  have hp : process_line localId none names now raw =
      ([Message.message localId (rustTrim raw)],
       [Output.chat now "you" (rustTrim raw)], true) := by
    simp only [process_line, h, Bool.false_eq_true, if_false, Option.getD_none]
  simp only [main_loop, hp, List.nil_append, List.cons_append]

theorem C6_chat_line_broadcast_witness :
    startsWithSlash (rustTrim "hello\n") = false ∧
    main_loop ⟨0⟩ none [] 0 ["hello\n"] =
      (Message.message ⟨0⟩ (rustTrim "hello\n") ::
         (main_loop ⟨0⟩ none [] 0 ([] : List String)).1,
       Output.chat 0 "you" (rustTrim "hello\n") ::
         (main_loop ⟨0⟩ none [] 0 ([] : List String)).2) :=
  ⟨by decide, C6_chat_line_broadcast ⟨0⟩ [] 0 "hello\n" [] (by decide)⟩

/-- **C7.** For every identity never recorded into the peer directory,
`lookup` returns absent, and rendering an inbound chat message from that
identity falls back to the identity's shortened display form
(`fmt_short`); `renderName` is a total function, so rendering cannot
panic. -/
theorem C7_unknown_sender_fallback (ops : List (NodeId × String)) (id : NodeId)
    (h : id ∉ ops.map (·.1)) :
    lookup (build_directory ops) id = none ∧
    renderName (build_directory ops) id = id.fmt_short := by
  have hl := lookup_build_directory_not_mem ops id h
  exact ⟨hl, by simp only [renderName, hl]⟩

theorem C7_unknown_sender_fallback_witness :
    (⟨0⟩ : NodeId) ∉ ([(⟨1⟩, "bob")] : List (NodeId × String)).map (·.1) ∧
    lookup (build_directory [(⟨1⟩, "bob")]) ⟨0⟩ = none ∧
    renderName (build_directory [(⟨1⟩, "bob")]) ⟨0⟩ = NodeId.fmt_short ⟨0⟩ :=
  ⟨by decide, (C7_unknown_sender_fallback [(⟨1⟩, "bob")] ⟨0⟩ (by decide)).1,
    (C7_unknown_sender_fallback [(⟨1⟩, "bob")] ⟨0⟩ (by decide)).2⟩

/-- **C8.** Ticket decoding is case-insensitive: decoding the uppercased
form of the encoded ticket yields the same result as decoding the encoded
form itself, because `Display` lowercases the base-32 output and
`from_str` uppercases its input before base-32 decoding. -/
theorem C8_ticket_case_insensitive (t : Ticket) :
    Ticket.from_str (toAsciiUppercase t.display) = Ticket.from_str t.display := by
  have hdata : (toAsciiUppercase (toAsciiUppercase t.display)).data =
      (toAsciiUppercase t.display).data := by
    simp only [Ticket.display, toAsciiLowercase, toAsciiUppercase, List.map_map]
    refine List.map_congr_left ?_
    intro c hc
    rcases mem_b32encode _ c hc with ⟨v, hv, rfl⟩
    have h1 := (b32char_case_facts v hv).1
    have h2 := (b32char_case_facts v hv).2
    simp only [Function.comp]
    rw [h1, h2]
  unfold Ticket.from_str
  rw [hdata]

theorem b32vals_none_of_mem {l : List Char} {c : Char} (hc : c ∈ l)
    (h : b32val c = none) : b32vals l = none := by
  induction l with
  | nil => simp at hc
  | cons c' cs ih =>
    rcases List.mem_cons.mp hc with rfl | hc'
    · rw [b32vals, h]
    · rw [b32vals, ih hc']
      cases b32val c' <;> rfl

/-- **C9.** `Ticket::from_str` reports a decode error — and, being modelled
by a total function, cannot panic — both (a) on every input containing a
character that is not a valid base-32 symbol even after case
normalization, and (b) on every input whose text base-32-decodes but whose
payload fails structural deserialization. -/
theorem C9_from_str_errors :
    (∀ s : String, (∃ c ∈ s.data, b32val (Char.toUpper c) = none) →
      ∃ e, Ticket.from_str s = Except.error e) ∧
    (∀ (s : String) (bytes : List Nat) (e : String),
      b32decode (toAsciiUppercase s).data = Except.ok bytes →
      Ticket.from_bytes bytes = Except.error e →
      Ticket.from_str s = Except.error e) := by
  constructor
  · rintro s ⟨c, hc, hval⟩
    have hnone : b32vals ((toAsciiUppercase s).data) = none := by
      refine b32vals_none_of_mem ?_ hval
      simp only [toAsciiUppercase]
      exact List.mem_map_of_mem _ hc
    refine ⟨"invalid symbol", ?_⟩
    simp only [Ticket.from_str, b32decode, hnone]
  · intro s bytes e hdec hbytes
    simp only [Ticket.from_str, hdec, hbytes]

theorem C9_from_str_errors_witness :
    ((∃ c ∈ "1".data, b32val (Char.toUpper c) = none) ∧
      ∃ e, Ticket.from_str "1" = Except.error e) ∧
    (b32decode (toAsciiUppercase "AA").data = Except.ok [0] ∧
      Ticket.from_bytes [0] = Except.error "invalid ticket: topic" ∧
      Ticket.from_str "AA" = Except.error "invalid ticket: topic") :=
  ⟨⟨by decide, C9_from_str_errors.1 "1" (by decide)⟩,
   ⟨rfl, rfl, C9_from_str_errors.2 "AA" [0] "invalid ticket: topic" rfl rfl⟩⟩

/-- **C10.** The shareable ticket printed at session startup always has
`nodes` equal to exactly the singleton list containing the local node's
address, for both the `open` and the `join` subcommand; on `join`, the
bootstrap addresses decoded from the user-supplied ticket (other than the
local address itself) are not included in the re-shared ticket. -/
theorem C10_reshared_ticket_singleton (cmd : Command) (freshTopic : TopicId)
    (me : NodeAddr) (tk : Ticket) (bootstrap : List NodeAddr)
    (h : startup_ticket cmd freshTopic me = Except.ok (tk, bootstrap)) :
    tk.nodes = [me] ∧ ∀ a ∈ bootstrap, a ≠ me → a ∉ tk.nodes := by
  have hn : tk.nodes = [me] := by
    cases cmd with
    | open_ =>
      simp only [startup_ticket] at h
      cases h
      rfl
    | join s =>
      simp only [startup_ticket] at h
      cases hts : Ticket.from_str s with
      | error e => rw [hts] at h; cases h
      | ok t =>
        rw [hts] at h
        cases h
        rfl
  refine ⟨hn, ?_⟩
  intro a _ hne hmem
  rw [hn] at hmem
  exact hne (List.mem_singleton.mp hmem)

theorem C10_reshared_ticket_singleton_witness :
    startup_ticket Command.open_ ⟨[]⟩ ⟨⟨0⟩, []⟩ =
      Except.ok ({ topic := ⟨[]⟩, nodes := [⟨⟨0⟩, []⟩] }, []) ∧
    ({ topic := ⟨[]⟩, nodes := [⟨⟨0⟩, []⟩] } : Ticket).nodes = [⟨⟨0⟩, []⟩] ∧
    ∀ a ∈ ([] : List NodeAddr), a ≠ ⟨⟨0⟩, []⟩ →
      a ∉ ({ topic := ⟨[]⟩, nodes := [⟨⟨0⟩, []⟩] } : Ticket).nodes :=
  ⟨rfl, (C10_reshared_ticket_singleton Command.open_ ⟨[]⟩ ⟨⟨0⟩, []⟩ _ _ rfl).1,
    (C10_reshared_ticket_singleton Command.open_ ⟨[]⟩ ⟨⟨0⟩, []⟩ _ _ rfl).2⟩
